import Mathlib

/-
  Verification development for the PuTTY fork platform file `unix/uxmisc.c`.

  The C routines under study are shallowly embedded as total Lean functions:
  strings become `List Char`, the process environment becomes a lookup
  function `List Char → Option (List Char)` (the model of `getenv`), and the
  filesystem-affecting routines are parameterised by oracles describing the
  outcomes of the `mkdir` / `stat` / `access` system calls.
-/

/-- Model of C `isalpha` in the C locale (ASCII letters). -/
def isalpha (c : Char) : Bool :=
  decide ('A' ≤ c ∧ c ≤ 'Z') || decide ('a' ≤ c ∧ c ≤ 'z')

/-- Model of C `isdigit` (ASCII digits). -/
def isdigit (c : Char) : Bool :=
  decide ('0' ≤ c ∧ c ≤ '9')

/-- Model of C `isalnum` in the C locale. -/
def isalnum (c : Char) : Bool :=
  isalpha c || isdigit c

/-- The character class scanned by the `$NAME` form in `expand_envstrings`:
    the loop condition `isalnum(str[i+elen+1]) || str[i+elen+1]=='_'`. -/
def varchar (c : Char) : Bool :=
  isalnum c || decide (c = '_')

/-- One pass of the scanning loop of `expand_envstrings` (uxmisc.c:380-416),
    producing the output characters (what pass 1 writes into `dest`).
    `fuel` is an upper bound on the number of loop iterations used only to
    make the recursion structural; any `fuel ≥ length of the input` gives
    the same answer (`expandF_fuel`).  The `Bool` argument is the C
    variable `skipnext`. -/
def expandF (env : List Char → Option (List Char)) :
    Nat → List Char → Bool → List Char
  | 0, _, _ => []
  | _ + 1, [], _ => []
  | fuel + 1, c :: rest, skipnext =>
    if c = '\\' ∧ (rest.head? = some '$' ∨ rest.head? = some '~') then
      expandF env fuel rest true
    else if skipnext = false ∧ c = '$' then
      match rest with
      | [] => []
      | d :: rest2 =>
        if d = '{' ∧ '}' ∈ rest2 then
          (if 0 < (rest2.takeWhile (fun x => x != '}')).length then
             ((env (rest2.takeWhile (fun x => x != '}'))).getD [])
           else []) ++
          expandF env fuel ((rest2.dropWhile (fun x => x != '}')).tail) false
        else if isalpha d = true ∨ d = '_' then
          ((env ((d :: rest2).takeWhile varchar)).getD []) ++
          expandF env fuel ((d :: rest2).dropWhile varchar) false
        else
          expandF env fuel (d :: rest2) false
    else if skipnext = false ∧ c = '~' then
      ((env ("HOME".toList)).getD []) ++ expandF env fuel rest false
    else
      c :: expandF env fuel rest false

/-- The counting pass (pass 0) of `expand_envstrings`: the value of `j`
    after the loop, i.e. the allocation size minus one.  Mirrors `expandF`
    exactly, adding `strlen` of each substitution instead of copying it. -/
def countF (env : List Char → Option (List Char)) :
    Nat → List Char → Bool → Nat
  | 0, _, _ => 0
  | _ + 1, [], _ => 0
  | fuel + 1, c :: rest, skipnext =>
    if c = '\\' ∧ (rest.head? = some '$' ∨ rest.head? = some '~') then
      countF env fuel rest true
    else if skipnext = false ∧ c = '$' then
      match rest with
      | [] => 0
      | d :: rest2 =>
        if d = '{' ∧ '}' ∈ rest2 then
          (if 0 < (rest2.takeWhile (fun x => x != '}')).length then
             ((env (rest2.takeWhile (fun x => x != '}'))).getD []).length
           else 0) +
          countF env fuel ((rest2.dropWhile (fun x => x != '}')).tail) false
        else if isalpha d = true ∨ d = '_' then
          ((env ((d :: rest2).takeWhile varchar)).getD []).length +
          countF env fuel ((d :: rest2).dropWhile varchar) false
        else
          countF env fuel (d :: rest2) false
    else if skipnext = false ∧ c = '~' then
      ((env ("HOME".toList)).getD []).length + countF env fuel rest false
    else
      1 + countF env fuel rest false

/-- The scanning loop of `expand_envstrings` started at an arbitrary scan
    state (`skip` = the C `skipnext` flag). -/
def expandLoop (env : List Char → Option (List Char))
    (l : List Char) (skip : Bool) : List Char :=
  expandF env l.length l skip

/-- `expand_envstrings` (uxmisc.c:372-423): the output string it returns
    for input `s` under environment `env`. -/
def expand_envstrings (env : List Char → Option (List Char))
    (s : List Char) : List Char :=
  expandF env s.length s false

/-- The length computed by the first (counting) pass of
    `expand_envstrings`: the `j` used in `smalloc(j+1)`. -/
def expand_count (env : List Char → Option (List Char))
    (s : List Char) : Nat :=
  countF env s.length s false

/-- An environment binding nothing at all. -/
def env_none : List Char → Option (List Char) := fun _ => none

/-- An environment binding only `HOME` to `/h`. -/
def env_home : List Char → Option (List Char) :=
  fun n => if n = "HOME".toList then some ("/h".toList) else none

/-- An environment binding `FOO` to `bar` and `HOME` to `/home/u`. -/
def env_foo : List Char → Option (List Char) :=
  fun n =>
    if n = "FOO".toList then some ("bar".toList)
    else if n = "HOME".toList then some ("/home/u".toList)
    else none

/-- The Linux/POSIX `EEXIST` errno value. -/
def EEXIST : Nat := 17

/-- Outcome of the `mkdir` call in `make_dir_and_check_ours`:
    success, or failure with an errno. -/
inductive MkdirOutcome : Type
  | ok : MkdirOutcome
  | fail (errno : Nat) : MkdirOutcome
deriving DecidableEq

/-- The fields of `struct stat` read by `make_dir_and_check_ours`. -/
structure StatRec : Type where
  st_uid : Nat
  st_mode : Nat
deriving DecidableEq

/-- The four distinct error messages `make_dir_and_check_ours` can produce
    (each constructor corresponds to one `dupprintf` format string, and the
    four format strings are pairwise distinct). -/
inductive DirError : Type
  | mkdirFailed (errno : Nat) : DirError
  | statFailed : DirError
  | notOurUid (owner : Nat) : DirError
  | badPerms (mode : Nat) : DirError
deriving DecidableEq

/-- The post-mkdir ownership/permission check of `make_dir_and_check_ours`
    (uxmisc.c:315-324): stat, then uid comparison, then `st_mode & 077`. -/
def dir_check (st : Option StatRec) (myuid : Nat) : Option DirError :=
  match st with
  | none => some DirError.statFailed
  | some r =>
    if r.st_uid ≠ myuid then some (DirError.notOurUid r.st_uid)
    else if Nat.land r.st_mode 63 ≠ 0 then
      some (DirError.badPerms (Nat.land r.st_mode 511))
    else none

/-- `make_dir_and_check_ours` (uxmisc.c:296-325), abstracted over the
    outcomes of its system calls: `mk` is the result of
    `mkdir(dirname, 0700)`, `st` the result of `stat(dirname, &st)`
    (`none` = stat failed), `myuid` the result of `getuid()`.
    Returns `none` on success, `some e` for the error message `e`. -/
def make_dir_and_check_ours (mk : MkdirOutcome) (st : Option StatRec)
    (myuid : Nat) : Option DirError :=
  match mk with
  | MkdirOutcome.ok => dir_check st myuid
  | MkdirOutcome.fail e =>
    if e ≠ EEXIST then some (DirError.mkdirFailed e) else dir_check st myuid

/-- Outcome of one `mkdir(prefix, mode)` call inside `make_dir_path`:
    success, failure with `errno == EEXIST` (tolerated), or failure with
    any other errno whose `strerror` text is `msg`. -/
inductive MkdirRes : Type
  | ok : MkdirRes
  | eexist : MkdirRes
  | err (msg : List Char) : MkdirRes
deriving DecidableEq

/-- The loop of `make_dir_path` (uxmisc.c:327-351).  `mk` is the mkdir
    oracle (filesystem state in, directory name and mode in, new state and
    outcome out); `done` is the already-scanned part of the path
    (`path[0..pos)`) and `remaining` the rest (`path + pos`).  A step takes
    `pos` to the next `/`-or-end (`strcspn`), runs `mkdir` on the prefix
    when it is non-empty, stops with an error on a hard failure, returns
    success at end of string, and otherwise skips the run of slashes
    (`strspn`) and continues.  `fuel` only bounds the iteration count;
    `fuel = remaining.length + 1` always suffices. -/
def mdpF {σ : Type} (mk : σ → List Char → Nat → σ × MkdirRes) (mode : Nat) :
    Nat → σ → List Char → List Char → σ × Option (List Char × List Char)
  | 0, fs, _, _ => (fs, none)
  | fuel + 1, fs, done, remaining =>
    if done ++ remaining.takeWhile (fun x => x != '/') = [] then
      if remaining.dropWhile (fun x => x != '/') = [] then (fs, none)
      else
        mdpF mk mode fuel fs
          (done ++ remaining.takeWhile (fun x => x != '/') ++
            (remaining.dropWhile (fun x => x != '/')).takeWhile
              (fun x => x == '/'))
          ((remaining.dropWhile (fun x => x != '/')).dropWhile
            (fun x => x == '/'))
    else
      match mk fs (done ++ remaining.takeWhile (fun x => x != '/')) mode with
      | (fs2, MkdirRes.err m) =>
        (fs2, some (done ++ remaining.takeWhile (fun x => x != '/'), m))
      | (fs2, _) =>
        if remaining.dropWhile (fun x => x != '/') = [] then (fs2, none)
        else
          mdpF mk mode fuel fs2
            (done ++ remaining.takeWhile (fun x => x != '/') ++
              (remaining.dropWhile (fun x => x != '/')).takeWhile
                (fun x => x == '/'))
            ((remaining.dropWhile (fun x => x != '/')).dropWhile
              (fun x => x == '/'))

/-- `make_dir_path` (uxmisc.c:327-351): create each non-empty
    slash-delimited leading portion of `path` with `mkdir(•, mode)`.
    Returns the new filesystem state and `none` on success or
    `some (failing directory name, OS error text)`. -/
def make_dir_path {σ : Type} (mk : σ → List Char → Nat → σ × MkdirRes)
    (fs : σ) (path : List Char) (mode : Nat) :
    σ × Option (List Char × List Char) :=
  mdpF mk mode (path.length + 1) fs [] path

/-- The list of directory names on which `make_dir_path` attempts `mkdir`,
    in order, extracted from the same scan as `mdpF`. -/
def dirStepsF : Nat → List Char → List Char → List (List Char)
  | 0, _, _ => []
  | fuel + 1, done, remaining =>
    (if done ++ remaining.takeWhile (fun x => x != '/') = [] then []
     else [done ++ remaining.takeWhile (fun x => x != '/')]) ++
    (if remaining.dropWhile (fun x => x != '/') = [] then []
     else
       dirStepsF fuel
         (done ++ remaining.takeWhile (fun x => x != '/') ++
           (remaining.dropWhile (fun x => x != '/')).takeWhile
             (fun x => x == '/'))
         ((remaining.dropWhile (fun x => x != '/')).dropWhile
           (fun x => x == '/')))

/-- The directory names `make_dir_path` attempts for `path`, in order. -/
def dirSteps (path : List Char) : List (List Char) :=
  dirStepsF (path.length + 1) [] path

/-- Run `mkdir(p, mode)` on each name of a list in order, treating `ok`
    and `eexist` as success and stopping at the first hard error with the
    failing name and the OS error text. -/
def attemptAll {σ : Type} (mk : σ → List Char → Nat → σ × MkdirRes)
    (mode : Nat) : σ → List (List Char) → σ × Option (List Char × List Char)
  | fs, [] => (fs, none)
  | fs, p :: ps =>
    match mk fs p mode with
    | (fs2, MkdirRes.err m) => (fs2, some (p, m))
    | (fs2, _) => attemptAll mk mode fs2 ps

/-- An honest `mkdir` model: the filesystem state is the set (list) of
    existing directories; creating an existing one fails with `EEXIST`,
    creating a new one succeeds and records it. -/
def mkdirFS (fs : List (List Char)) (p : List Char) (_mode : Nat) :
    List (List Char) × MkdirRes :=
  if p ∈ fs then (fs, MkdirRes.eexist) else (p :: fs, MkdirRes.ok)

/-- The three possible results of `mkdir_path`: `created` models the C
    `NULL` return ("succeeded after creating"), `nothingToDo` models the
    `dupstr("")` return, `failed` an error message from `make_dir_path`. -/
inductive MPRes : Type
  | created : MPRes
  | nothingToDo : MPRes
  | failed (dir : List Char) (msg : List Char) : MPRes
deriving DecidableEq

/-- The text before the last `/` of `p` (the `dupprintf("%.*s", pos -
    fn->path, fn->path)` of `mkdir_path`); meaningful when `'/' ∈ p`. -/
def parent_dir (p : List Char) : List Char :=
  ((p.reverse.dropWhile (fun x => x != '/')).tail).reverse

/-- `mkdir_path` (uxmisc.c:353-370), abstracted over the
    `access(•, F_OK) == 0` test `acc` and the mkdir oracle `mk`:
    if the filename contains no `/`, or its parent directory already
    exists, report `nothingToDo` without touching the filesystem;
    otherwise delegate to `make_dir_path` with mode `0777`. -/
def mkdir_path {σ : Type} (acc : List Char → Bool)
    (mk : σ → List Char → Nat → σ × MkdirRes) (fs : σ)
    (path : List Char) : σ × MPRes :=
  if '/' ∈ path then
    if acc (parent_dir path) then (fs, MPRes.nothingToDo)
    else
      match make_dir_path mk fs (parent_dir path) 0o777 with
      | (fs2, none) => (fs2, MPRes.created)
      | (fs2, some pm) => (fs2, MPRes.failed pm.1 pm.2)
  else (fs, MPRes.nothingToDo)

/-- A `Filename` is (the model of) the C struct holding one path string;
    C strings contain no NUL byte. -/
structure Filename : Type where
  path : List Char
deriving DecidableEq

/-- The NUL byte. -/
def NUL : Char := Char.ofNat 0

/-- `filename_serialise` (uxmisc.c:78-86): the bytes written
    (`strcpy(data, f->path)`, i.e. the path plus its trailing NUL) and the
    returned length `strlen(f->path) + 1`. -/
def filename_serialise (f : Filename) : List Char × Nat :=
  (f.path ++ [NUL], f.path.length + 1)

/-- `memchr(data, '\0', n)` on a buffer modelled as a byte list: the index
    of the first NUL among the first `n` bytes, if any. -/
def memchr_nul : List Char → Nat → Option Nat
  | _, 0 => none
  | [], _ + 1 => none
  | c :: rest, n + 1 =>
    if c = NUL then some 0 else (memchr_nul rest n).map (fun i => i + 1)

/-- `filename_deserialise` (uxmisc.c:87-97): find the first NUL within
    `maxsize` bytes; if none, fail; otherwise return the `Filename` built
    by `filename_from_str(data)` (which copies up to the NUL) and the
    consumed length `*used = end - data`. -/
def filename_deserialise (data : List Char) (maxsize : Nat) :
    Option (Filename × Nat) :=
  match memchr_nul data maxsize with
  | none => none
  | some i => some (⟨data.takeWhile (fun x => x != NUL)⟩, i + 1)

theorem expandF_nil (env : List Char → Option (List Char)) (fuel : Nat)
    (skip : Bool) : expandF env fuel [] skip = [] := by
  cases fuel <;> rfl

theorem countF_nil (env : List Char → Option (List Char)) (fuel : Nat)
    (skip : Bool) : countF env fuel [] skip = 0 := by
  cases fuel <;> rfl

theorem dropWhile_len (p : Char → Bool) (l : List Char) :
    (l.dropWhile p).length ≤ l.length := by
  induction l with
  | nil => exact le_rfl
  | cons c rest ih =>
    cases hp : p c
    · simp [List.dropWhile, hp]
    · simp [List.dropWhile, hp]
      omega

theorem tail_dropWhile_len (p : Char → Bool) (l : List Char) :
    ((l.dropWhile p).tail).length ≤ l.length := by
  have h1 : ((l.dropWhile p).tail).length ≤ (l.dropWhile p).length := by
    rw [List.length_tail]; omega
  exact le_trans h1 (dropWhile_len p l)

theorem expandF_fuel (env : List Char → Option (List Char)) :
    ∀ f1 : Nat, ∀ (l : List Char) (skip : Bool) (f2 : Nat),
      l.length ≤ f1 → l.length ≤ f2 →
      expandF env f1 l skip = expandF env f2 l skip := by
  intro f1
  induction f1 with
  | zero =>
    intro l skip f2 h1 _
    have hl : l = [] := List.eq_nil_of_length_eq_zero (Nat.le_zero.mp h1)
    subst hl
    rw [expandF_nil, expandF_nil]
  | succ f ih =>
    intro l skip f2 h1 h2
    cases l with
    | nil => rw [expandF_nil, expandF_nil]
    | cons c rest =>
      cases f2 with
      | zero => simp at h2
      | succ f2' =>
        simp only [List.length_cons, Nat.succ_le_succ_iff] at h1 h2
        by_cases hA : c = '\\' ∧ (rest.head? = some '$' ∨ rest.head? = some '~')
        · simp only [expandF, if_pos hA]
          exact ih rest true f2' h1 h2
        · by_cases hB : skip = false ∧ c = '$'
          · cases rest with
            | nil => simp only [expandF, if_neg hA, if_pos hB]
            | cons d rest2 =>
              simp only [List.length_cons] at h1 h2
              simp only [expandF, if_neg hA, if_pos hB]
              by_cases hC : d = '{' ∧ '}' ∈ rest2
              · simp only [if_pos hC]
                have hlen : ((rest2.dropWhile (fun x => x != '}')).tail).length
                    ≤ rest2.length := tail_dropWhile_len _ _
                rw [ih ((rest2.dropWhile (fun x => x != '}')).tail) false f2'
                  (by omega) (by omega)]
              · simp only [if_neg hC]
                by_cases hD : isalpha d = true ∨ d = '_'
                · simp only [if_pos hD]
                  have hlen : ((d :: rest2).dropWhile varchar).length
                      ≤ (d :: rest2).length := dropWhile_len _ _
                  simp only [List.length_cons] at hlen
                  rw [ih ((d :: rest2).dropWhile varchar) false f2'
                    (by omega) (by omega)]
                · simp only [if_neg hD]
                  exact ih (d :: rest2) false f2' (by simp; omega) (by simp; omega)
          · by_cases hE : skip = false ∧ c = '~'
            · simp only [expandF, if_neg hA, if_neg hB, if_pos hE]
              rw [ih rest false f2' h1 h2]
            · simp only [expandF, if_neg hA, if_neg hB, if_neg hE]
              rw [ih rest false f2' h1 h2]

theorem expandF_toLoop (env : List Char → Option (List Char)) (fuel : Nat)
    (l : List Char) (skip : Bool) (h : l.length ≤ fuel) :
    expandF env fuel l skip = expandLoop env l skip :=
  expandF_fuel env fuel l skip l.length h le_rfl

theorem countF_eq (env : List Char → Option (List Char)) :
    ∀ fuel : Nat, ∀ (l : List Char) (skip : Bool),
      countF env fuel l skip = (expandF env fuel l skip).length := by
  intro fuel
  induction fuel with
  | zero => intro l skip; rfl
  | succ f ih =>
    intro l skip
    cases l with
    | nil => rfl
    | cons c rest =>
      by_cases hA : c = '\\' ∧ (rest.head? = some '$' ∨ rest.head? = some '~')
      · simp only [expandF, countF, if_pos hA]
        exact ih rest true
      · by_cases hB : skip = false ∧ c = '$'
        · cases rest with
          | nil => simp only [expandF, countF, if_neg hA, if_pos hB]; rfl
          | cons d rest2 =>
            simp only [expandF, countF, if_neg hA, if_pos hB]
            by_cases hC : d = '{' ∧ '}' ∈ rest2
            · simp only [if_pos hC, List.length_append, ih]
              by_cases hn : 0 < (rest2.takeWhile (fun x => x != '}')).length
              · simp only [if_pos hn]
              · simp only [if_neg hn, List.length_nil]
            · simp only [if_neg hC]
              by_cases hD : isalpha d = true ∨ d = '_'
              · simp only [if_pos hD, List.length_append, ih]
              · simp only [if_neg hD]
                exact ih (d :: rest2) false
        · by_cases hE : skip = false ∧ c = '~'
          · simp only [expandF, countF, if_neg hA, if_neg hB, if_pos hE,
              List.length_append, ih]
          · simp only [expandF, countF, if_neg hA, if_neg hB, if_neg hE,
              List.length_cons, ih]
            omega

theorem expandLoop_cons (env : List Char → Option (List Char)) (c : Char)
    (rest : List Char) (skip : Bool) :
    expandLoop env (c :: rest) skip =
      expandF env ((c :: rest).length + 1) (c :: rest) skip :=
  expandF_fuel env (c :: rest).length (c :: rest) skip ((c :: rest).length + 1)
    le_rfl (Nat.le_succ _)

theorem expandF_cons_eq (env : List Char → Option (List Char)) (fuel : Nat)
    (c : Char) (rest : List Char) (skipnext : Bool) :
    expandF env (fuel + 1) (c :: rest) skipnext =
      (if c = '\\' ∧ (rest.head? = some '$' ∨ rest.head? = some '~') then
        expandF env fuel rest true
      else if skipnext = false ∧ c = '$' then
        match rest with
        | [] => []
        | d :: rest2 =>
          if d = '{' ∧ '}' ∈ rest2 then
            (if 0 < (rest2.takeWhile (fun x => x != '}')).length then
               ((env (rest2.takeWhile (fun x => x != '}'))).getD [])
             else []) ++
            expandF env fuel ((rest2.dropWhile (fun x => x != '}')).tail) false
          else if isalpha d = true ∨ d = '_' then
            ((env ((d :: rest2).takeWhile varchar)).getD []) ++
            expandF env fuel ((d :: rest2).dropWhile varchar) false
          else
            expandF env fuel (d :: rest2) false
      else if skipnext = false ∧ c = '~' then
        ((env ("HOME".toList)).getD []) ++ expandF env fuel rest false
      else
        c :: expandF env fuel rest false) := rfl

theorem expandF_dollar_eq (env : List Char → Option (List Char)) (fuel : Nat)
    (d : Char) (rest2 : List Char) :
    expandF env (fuel + 1) ('$' :: d :: rest2) false =
      (if d = '{' ∧ '}' ∈ rest2 then
        (if 0 < (rest2.takeWhile (fun x => x != '}')).length then
           ((env (rest2.takeWhile (fun x => x != '}'))).getD [])
         else []) ++
        expandF env fuel ((rest2.dropWhile (fun x => x != '}')).tail) false
      else if isalpha d = true ∨ d = '_' then
        ((env ((d :: rest2).takeWhile varchar)).getD []) ++
        expandF env fuel ((d :: rest2).dropWhile varchar) false
      else
        expandF env fuel (d :: rest2) false) := rfl

theorem step_esc (env : List Char → Option (List Char)) (rest : List Char)
    (h : rest.head? = some '$' ∨ rest.head? = some '~') :
    expandLoop env ('\\' :: rest) false = expandLoop env rest true := by
  rw [expandLoop_cons, expandF_cons_eq]
  rw [if_pos (show '\\' = '\\' ∧
      (rest.head? = some '$' ∨ rest.head? = some '~') from ⟨rfl, h⟩)]
  exact expandF_toLoop env _ rest true (by rw [List.length_cons]; omega)

theorem step_skip (env : List Char → Option (List Char)) (c : Char)
    (rest : List Char)
    (hc : c ≠ '\\' ∨ (rest.head? ≠ some '$' ∧ rest.head? ≠ some '~')) :
    expandLoop env (c :: rest) true = c :: expandLoop env rest false := by
  rw [expandLoop_cons, expandF_cons_eq]
  have h1 : ¬(c = '\\' ∧ (rest.head? = some '$' ∨ rest.head? = some '~')) := by
    rcases hc with h | ⟨ha, hb⟩
    · exact fun hh => h hh.1
    · rintro ⟨-, h | h⟩
      · exact ha h
      · exact hb h
  rw [if_neg h1, if_neg (fun hh => absurd hh.1 (by decide)),
    if_neg (fun hh => absurd hh.1 (by decide))]
  rw [expandF_toLoop env _ rest false (by rw [List.length_cons]; omega)]

theorem step_plain (env : List Char → Option (List Char)) (c : Char)
    (rest : List Char)
    (h1 : ¬(c = '\\' ∧ (rest.head? = some '$' ∨ rest.head? = some '~')))
    (h2 : c ≠ '$') (h3 : c ≠ '~') :
    expandLoop env (c :: rest) false = c :: expandLoop env rest false := by
  rw [expandLoop_cons, expandF_cons_eq]
  rw [if_neg h1, if_neg (fun hh => h2 hh.2), if_neg (fun hh => h3 hh.2)]
  rw [expandF_toLoop env _ rest false (by rw [List.length_cons]; omega)]

theorem step_tilde (env : List Char → Option (List Char)) (rest : List Char) :
    expandLoop env ('~' :: rest) false =
      ((env ("HOME".toList)).getD []) ++ expandLoop env rest false := by
  rw [expandLoop_cons, expandF_cons_eq]
  rw [if_neg (fun hh => absurd hh.1 (by decide)),
    if_neg (fun hh => absurd hh.2 (by decide)),
    if_pos (show false = false ∧ '~' = '~' from ⟨rfl, rfl⟩)]
  rw [expandF_toLoop env _ rest false (by rw [List.length_cons]; omega)]

theorem step_dollar_name (env : List Char → Option (List Char)) (d : Char)
    (rest2 : List Char) (hd : isalpha d = true ∨ d = '_') :
    expandLoop env ('$' :: d :: rest2) false =
      ((env ((d :: rest2).takeWhile varchar)).getD []) ++
      expandLoop env ((d :: rest2).dropWhile varchar) false := by
  have hbr : ¬(d = '{' ∧ '}' ∈ rest2) := by
    rintro ⟨rfl, -⟩
    rcases hd with h | h
    · exact absurd h (by decide)
    · exact absurd h (by decide)
  rw [expandLoop_cons, expandF_dollar_eq]
  rw [if_neg hbr, if_pos hd]
  congr 1
  exact expandF_toLoop env _ _ false
    (le_trans (dropWhile_len _ _)
      (by simp only [List.length_cons]; omega))

theorem step_dollar_brace (env : List Char → Option (List Char))
    (rest2 : List Char) (h : '}' ∈ rest2) :
    expandLoop env ('$' :: '{' :: rest2) false =
      (if 0 < (rest2.takeWhile (fun x => x != '}')).length then
         ((env (rest2.takeWhile (fun x => x != '}'))).getD [])
       else []) ++
      expandLoop env ((rest2.dropWhile (fun x => x != '}')).tail) false := by
  rw [expandLoop_cons, expandF_dollar_eq]
  rw [if_pos (show '{' = '{' ∧ '}' ∈ rest2 from ⟨rfl, h⟩)]
  congr 1
  exact expandF_toLoop env _ _ false
    (le_trans (tail_dropWhile_len _ _)
      (by simp only [List.length_cons]; omega))

theorem expandF_id (env : List Char → Option (List Char)) :
    ∀ fuel : Nat, ∀ (l : List Char) (skip : Bool),
      l.length ≤ fuel → '$' ∉ l → '~' ∉ l → '\\' ∉ l →
      expandF env fuel l skip = l := by
  intro fuel
  induction fuel with
  | zero =>
    intro l skip h1 _ _ _
    have hl : l = [] := List.eq_nil_of_length_eq_zero (Nat.le_zero.mp h1)
    subst hl
    rfl
  | succ f ih =>
    intro l skip h1 hd ht hb
    cases l with
    | nil => rw [expandF_nil]
    | cons c rest =>
      simp only [List.mem_cons, not_or] at hd ht hb
      obtain ⟨hd1, hd2⟩ := hd
      obtain ⟨ht1, ht2⟩ := ht
      obtain ⟨hb1, hb2⟩ := hb
      rw [expandF_cons_eq]
      rw [if_neg (fun hh => hb1 hh.1.symm),
        if_neg (fun hh => hd1 hh.2.symm),
        if_neg (fun hh => ht1 hh.2.symm)]
      have h1' : rest.length ≤ f := by
        rw [List.length_cons] at h1; omega
      rw [ih rest false h1' hd2 ht2 hb2]

/-- C1 (counterexample): the claim says a `$` matching neither the `$NAME`
    nor the `${NAME}` form is copied literally to the output.  The code
    instead emits nothing for it (`elen = -1` and the `if (elen > 0)` guard
    skips output, while the surrounding branch has already consumed the
    `$`): `$1abc` expands to `1abc`, a trailing lone `$` to the empty
    string, and `${FOO` (no closing brace) to `{FOO`. -/
theorem c1_counterexample :
    expand_envstrings env_none ("$1abc".toList) = "1abc".toList ∧
    expand_envstrings env_none ("$1abc".toList) ≠ "$1abc".toList ∧
    expand_envstrings env_none ("$".toList) = [] ∧
    expand_envstrings env_none ['$', '{', 'F', 'O', 'O'] =
      ['{', 'F', 'O', 'O'] := by
  refine ⟨by decide, by decide, by decide, by decide⟩

/-- C1 (amended): whenever the scanner meets an unescaped `$` that matches
    neither the `$NAME` form (next character not a letter or underscore)
    nor a brace-closed `${NAME}` form (no `}` after `${`), the `$` is
    dropped — it contributes nothing to the output — and scanning resumes
    at the character after the `$`.  In particular a trailing lone `$`
    yields nothing, `$1abc` yields `1abc`, and `${FOO` with no closing
    brace yields `{FOO`. -/
theorem c1_dollar_dropped (env : List Char → Option (List Char))
    (rest : List Char)
    (h : match rest with
         | [] => True
         | d :: rest2 => ¬(d = '{' ∧ '}' ∈ rest2) ∧
                         ¬(isalpha d = true ∨ d = '_')) :
    expandLoop env ('$' :: rest) false = expandLoop env rest false := by
  cases rest with
  | nil => rfl
  | cons d rest2 =>
    obtain ⟨hC, hD⟩ := h
    rw [expandLoop_cons, expandF_dollar_eq, if_neg hC, if_neg hD]
    exact expandF_toLoop env _ _ false (by simp only [List.length_cons]; omega)

/-- C1 (witness for the amended theorem): `$1abc` at the scanner, with no
    variables bound, drops the `$` and goes on at `1`. -/
theorem c1_dollar_dropped_witness :
    expandLoop env_none ('$' :: ['1', 'a', 'b', 'c']) false =
      expandLoop env_none ['1', 'a', 'b', 'c'] false :=
  c1_dollar_dropped env_none ['1', 'a', 'b', 'c']
    (by exact ⟨by decide, by decide⟩)

/-- C3 (confirmed): an unescaped `$NAME` (NAME the maximal run of ASCII
    alphanumerics/underscore, starting with a letter or underscore) and an
    unescaped `${NAME}` (NAME anything up to the first `}`) are replaced by
    the environment value of NAME, or removed entirely when NAME is
    unbound (`Option.getD []` covers both).  The hypothesis `env [] = none`
    reflects POSIX environments, whose variable names are non-empty (the
    code never calls `getenv("")`: for `${}` it skips the lookup, which
    under this hypothesis coincides with "unbound, so removed").  The
    expander is a total function, so it never fails.  The last conjunct is
    the spec example: `${FOO}` with `FOO` unset expands to the empty
    string. -/
theorem c3_subst (env : List Char → Option (List Char))
    (hempty : env [] = none) :
    (∀ (d : Char) (rest : List Char), isalpha d = true ∨ d = '_' →
        expandLoop env ('$' :: d :: rest) false =
          ((env (d :: rest.takeWhile varchar)).getD []) ++
          expandLoop env (rest.dropWhile varchar) false) ∧
    (∀ rest2 : List Char, '}' ∈ rest2 →
        expandLoop env ('$' :: '{' :: rest2) false =
          ((env (rest2.takeWhile (fun x => x != '}'))).getD []) ++
          expandLoop env ((rest2.dropWhile (fun x => x != '}')).tail) false) ∧
    expand_envstrings env_none ['$', '{', 'F', 'O', 'O', '}'] = [] := by
  refine ⟨?_, ?_, by decide⟩
  · intro d rest hd
    have hv : varchar d = true := by
      rcases hd with h | h
      · simp [varchar, isalnum, h]
      · subst h; decide
    rw [step_dollar_name env d rest hd, List.takeWhile_cons_of_pos hv,
      List.dropWhile_cons_of_pos hv]
  · intro rest2 h
    rw [step_dollar_brace env rest2 h]
    by_cases hn : 0 < (rest2.takeWhile (fun x => x != '}')).length
    · rw [if_pos hn]
    · rw [if_neg hn]
      have hnil : rest2.takeWhile (fun x => x != '}') = [] := by
        cases hx : rest2.takeWhile (fun x => x != '}') with
        | nil => rfl
        | cons a l => rw [hx] at hn; simp [List.length_cons] at hn
      rw [hnil, hempty]
      rfl

/-- C3 (witness): `${FOO}` with `FOO` bound to `bar` substitutes the
    value `bar`. -/
theorem c3_subst_witness :
    expandLoop env_foo ('$' :: '{' :: ['F', 'O', 'O', '}']) false =
      ((env_foo ((['F', 'O', 'O', '}'] : List Char).takeWhile
          (fun x => x != '}'))).getD []) ++
      expandLoop env_foo (((['F', 'O', 'O', '}'] : List Char).dropWhile
          (fun x => x != '}')).tail) false :=
  (c3_subst env_foo (by decide)).2.1 ['F', 'O', 'O', '}'] (by decide)

/-- C4 (confirmed): a backslash immediately followed by `$` or `~` is
    dropped; the following character is copied literally and takes part in
    no substitution (the scanner continues after it in the ordinary
    state).  A backslash not followed by `$` or `~` is itself copied
    literally.  The last conjunct is the spec example:
    `expand("\$HOME") = "$HOME"` even though `HOME` is bound. -/
theorem c4_escape (env : List Char → Option (List Char)) :
    (∀ (c : Char) (rest : List Char), c = '$' ∨ c = '~' →
        expandLoop env ('\\' :: c :: rest) false =
          c :: expandLoop env rest false) ∧
    (∀ rest : List Char, rest.head? ≠ some '$' → rest.head? ≠ some '~' →
        expandLoop env ('\\' :: rest) false =
          '\\' :: expandLoop env rest false) ∧
    expand_envstrings env_foo ("\\$HOME".toList) = "$HOME".toList := by
  refine ⟨?_, ?_, by decide⟩
  · intro c rest hc
    rw [step_esc env (c :: rest) (by rcases hc with h | h <;> simp [h])]
    refine step_skip env c rest (Or.inl ?_)
    rcases hc with h | h <;> subst h <;> decide
  · intro rest h1 h2
    refine step_plain env '\\' rest ?_ (by decide) (by decide)
    rintro ⟨-, h | h⟩
    · exact h1 h
    · exact h2 h

/-- C4 (witness): `\$` at the scanner drops the backslash and copies the
    `$` literally. -/
theorem c4_escape_witness :
    expandLoop env_foo ('\\' :: '$' :: "HOME".toList) false =
      '$' :: expandLoop env_foo ("HOME".toList) false :=
  (c4_escape env_foo).1 '$' ("HOME".toList) (Or.inl rfl)

/-- C5 (confirmed): an unescaped `~`, at any scanning position, is
    replaced by the value of `HOME`, or removed entirely when `HOME` is
    unset (`Option.getD []` covers both), and scanning continues after it;
    hence every `~` expands independently, e.g. `a~b~c` with `HOME=/h`
    expands to `a/hb/hc`. -/
theorem c5_tilde (env : List Char → Option (List Char)) :
    (∀ rest : List Char,
        expandLoop env ('~' :: rest) false =
          ((env ("HOME".toList)).getD []) ++ expandLoop env rest false) ∧
    expand_envstrings env_home ("a~b~c".toList) = "a/hb/hc".toList :=
  ⟨step_tilde env, by decide⟩

/-- C8 (confirmed): on a string containing no `$`, no `~` and no `\`,
    `expand_envstrings` is the identity. -/
theorem c8_identity (env : List Char → Option (List Char)) (s : List Char)
    (h1 : '$' ∉ s) (h2 : '~' ∉ s) (h3 : '\\' ∉ s) :
    expand_envstrings env s = s :=
  expandF_id env s.length s false le_rfl h1 h2 h3

/-- C8 (witness): `abc` is unchanged. -/
theorem c8_identity_witness :
    expand_envstrings env_none ("abc".toList) = "abc".toList :=
  c8_identity env_none ("abc".toList) (by decide) (by decide) (by decide)

/-- C9 (confirmed): for every input and fixed environment, the length
    computed by the first (counting) pass of `expand_envstrings` equals
    the number of characters emitted by the second (copying) pass, so with
    the `smalloc(j+1)` buffer every write of the copying pass — the
    characters at positions `0..j-1` and the final NUL at `dest[j]` — is
    in bounds. -/
theorem c9_two_pass (env : List Char → Option (List Char)) (s : List Char) :
    expand_count env s = (expand_envstrings env s).length :=
  countF_eq env s.length s false

theorem dir_check_none_iff (st : Option StatRec) (myuid : Nat) :
    dir_check st myuid = none ↔
      ∃ r : StatRec, st = some r ∧ r.st_uid = myuid ∧
        Nat.land r.st_mode 63 = 0 := by
  cases st with
  | none => simp [dir_check]
  | some r =>
    simp only [dir_check, Option.some.injEq]
    by_cases h1 : r.st_uid ≠ myuid
    · simp only [if_pos h1]
      constructor
      · intro h; exact absurd h (by simp)
      · rintro ⟨r', hr', h2, -⟩
        cases hr'
        exact absurd h2 h1
    · simp only [if_neg h1]
      push_neg at h1
      by_cases h2 : Nat.land r.st_mode 63 ≠ 0
      · simp only [if_pos h2]
        constructor
        · intro h; exact absurd h (by simp)
        · rintro ⟨r', hr', -, h3⟩
          cases hr'
          exact absurd h3 h2
      · simp only [if_neg h2]
        push_neg at h2
        constructor
        · intro _
          exact ⟨r, rfl, h1, h2⟩
        · intro _
          trivial

/-- C2 (confirmed): `make_dir_and_check_ours` runs the ownership and
    permission check whenever `mkdir` succeeded or failed with `EEXIST`
    (in particular on a pre-existing directory), and returns an error
    message in exactly four cases with four pairwise distinct messages
    (the `DirError` constructors model the four distinct `dupprintf`
    format strings): `mkdir` failed with an errno other than `EEXIST`,
    `stat` failed, the directory owner differs from `getuid()`, or
    `st_mode & 077` is non-zero; it returns `none` (success) otherwise. -/
theorem c2_check_ours (mk : MkdirOutcome) (st : Option StatRec)
    (myuid : Nat) :
    (make_dir_and_check_ours mk st myuid = none ↔
      ((mk = MkdirOutcome.ok ∨ mk = MkdirOutcome.fail EEXIST) ∧
       ∃ r : StatRec, st = some r ∧ r.st_uid = myuid ∧
         Nat.land r.st_mode 63 = 0)) ∧
    (∀ e : Nat, e ≠ EEXIST →
      make_dir_and_check_ours (MkdirOutcome.fail e) st myuid =
        some (DirError.mkdirFailed e)) ∧
    (mk = MkdirOutcome.ok ∨ mk = MkdirOutcome.fail EEXIST →
      make_dir_and_check_ours mk none myuid = some DirError.statFailed) ∧
    (∀ r : StatRec, mk = MkdirOutcome.ok ∨ mk = MkdirOutcome.fail EEXIST →
      r.st_uid ≠ myuid →
      make_dir_and_check_ours mk (some r) myuid =
        some (DirError.notOurUid r.st_uid)) ∧
    (∀ r : StatRec, mk = MkdirOutcome.ok ∨ mk = MkdirOutcome.fail EEXIST →
      r.st_uid = myuid → Nat.land r.st_mode 63 ≠ 0 →
      make_dir_and_check_ours mk (some r) myuid =
        some (DirError.badPerms (Nat.land r.st_mode 511))) := by
  have hok : ∀ st' : Option StatRec,
      make_dir_and_check_ours MkdirOutcome.ok st' myuid =
        dir_check st' myuid := fun _ => rfl
  have hee : ∀ st' : Option StatRec,
      make_dir_and_check_ours (MkdirOutcome.fail EEXIST) st' myuid =
        dir_check st' myuid := by
    intro st'
    simp [make_dir_and_check_ours]
  refine ⟨?_, ?_, ?_, ?_, ?_⟩
  · cases mk with
    | ok =>
      rw [hok]
      rw [dir_check_none_iff]
      simp
    | fail e =>
      by_cases he : e = EEXIST
      · subst he
        rw [hee, dir_check_none_iff]
        simp
      · simp only [make_dir_and_check_ours, if_pos he]
        constructor
        · intro h; exact absurd h (by simp)
        · rintro ⟨h1 | h1, -⟩
          · cases h1
          · rw [MkdirOutcome.fail.injEq] at h1
            exact absurd h1 he
  · intro e he
    simp only [make_dir_and_check_ours, if_pos he]
  · rintro (rfl | rfl)
    · rw [hok]; rfl
    · rw [hee]; rfl
  · intro r hmk hr
    have : make_dir_and_check_ours mk (some r) myuid = dir_check (some r) myuid := by
      rcases hmk with rfl | rfl
      · exact hok _
      · exact hee _
    rw [this]
    simp only [dir_check, if_pos hr]
  · intro r hmk hr1 hr2
    have : make_dir_and_check_ours mk (some r) myuid = dir_check (some r) myuid := by
      rcases hmk with rfl | rfl
      · exact hok _
      · exact hee _
    rw [this]
    simp only [dir_check,
      if_neg (show ¬(r.st_uid ≠ myuid) from fun hh => hh hr1), if_pos hr2]

/-- C2 (witness): `mkdir` reported `EEXIST`, yet the uid check still runs
    and reports the distinct owner-mismatch error for a directory owned by
    uid 42 with mode 0755, when our uid is 0. -/
theorem c2_check_ours_witness :
    make_dir_and_check_ours (MkdirOutcome.fail 17) (some ⟨42, 493⟩) 0 =
      some (DirError.notOurUid 42) :=
  (c2_check_ours (MkdirOutcome.fail 17) (some ⟨42, 493⟩) 0).2.2.2.1
    ⟨42, 493⟩ (Or.inr rfl) (by decide)

theorem mdpF_succ {σ : Type} (mk : σ → List Char → Nat → σ × MkdirRes)
    (mode : Nat) (fuel : Nat) (fs : σ) (done remaining : List Char) :
    mdpF mk mode (fuel + 1) fs done remaining =
      (if done ++ remaining.takeWhile (fun x => x != '/') = [] then
        if remaining.dropWhile (fun x => x != '/') = [] then (fs, none)
        else
          mdpF mk mode fuel fs
            (done ++ remaining.takeWhile (fun x => x != '/') ++
              (remaining.dropWhile (fun x => x != '/')).takeWhile
                (fun x => x == '/'))
            ((remaining.dropWhile (fun x => x != '/')).dropWhile
              (fun x => x == '/'))
      else
        match mk fs (done ++ remaining.takeWhile (fun x => x != '/')) mode with
        | (fs2, MkdirRes.err m) =>
          (fs2, some (done ++ remaining.takeWhile (fun x => x != '/'), m))
        | (fs2, _) =>
          if remaining.dropWhile (fun x => x != '/') = [] then (fs2, none)
          else
            mdpF mk mode fuel fs2
              (done ++ remaining.takeWhile (fun x => x != '/') ++
                (remaining.dropWhile (fun x => x != '/')).takeWhile
                  (fun x => x == '/'))
              ((remaining.dropWhile (fun x => x != '/')).dropWhile
                (fun x => x == '/'))) := rfl

theorem dirStepsF_succ (fuel : Nat) (done remaining : List Char) :
    dirStepsF (fuel + 1) done remaining =
      (if done ++ remaining.takeWhile (fun x => x != '/') = [] then []
       else [done ++ remaining.takeWhile (fun x => x != '/')]) ++
      (if remaining.dropWhile (fun x => x != '/') = [] then []
       else
         dirStepsF fuel
           (done ++ remaining.takeWhile (fun x => x != '/') ++
             (remaining.dropWhile (fun x => x != '/')).takeWhile
               (fun x => x == '/'))
           ((remaining.dropWhile (fun x => x != '/')).dropWhile
             (fun x => x == '/'))) := rfl

theorem attemptAll_cons {σ : Type} (mk : σ → List Char → Nat → σ × MkdirRes)
    (mode : Nat) (fs : σ) (p : List Char) (ps : List (List Char)) :
    attemptAll mk mode fs (p :: ps) =
      (match mk fs p mode with
       | (fs2, MkdirRes.err m) => (fs2, some (p, m))
       | (fs2, _) => attemptAll mk mode fs2 ps) := rfl

theorem mdpF_eq_attempt {σ : Type} (mk : σ → List Char → Nat → σ × MkdirRes)
    (mode : Nat) :
    ∀ fuel : Nat, ∀ (fs : σ) (done remaining : List Char),
      mdpF mk mode fuel fs done remaining =
        attemptAll mk mode fs (dirStepsF fuel done remaining) := by
  intro fuel
  induction fuel with
  | zero => intro fs done remaining; rfl
  | succ f ih =>
    intro fs done remaining
    rw [mdpF_succ, dirStepsF_succ]
    by_cases h1 : done ++ remaining.takeWhile (fun x => x != '/') = []
    · rw [if_pos h1, if_pos h1, List.nil_append]
      by_cases h2 : remaining.dropWhile (fun x => x != '/') = []
      · rw [if_pos h2, if_pos h2]; rfl
      · rw [if_neg h2, if_neg h2]; exact ih _ _ _
    · rw [if_neg h1, if_neg h1, List.singleton_append, attemptAll_cons]
      rcases hmk : mk fs (done ++ remaining.takeWhile (fun x => x != '/')) mode
        with ⟨fs2, r⟩
      cases r with
      | err m => rfl
      | ok =>
        dsimp only
        by_cases h2 : remaining.dropWhile (fun x => x != '/') = []
        · rw [if_pos h2, if_pos h2]; rfl
        · rw [if_neg h2, if_neg h2]; exact ih _ _ _
      | eexist =>
        dsimp only
        by_cases h2 : remaining.dropWhile (fun x => x != '/') = []
        · rw [if_pos h2, if_pos h2]; rfl
        · rw [if_neg h2, if_neg h2]; exact ih _ _ _

theorem attemptAll_mkdirFS_none (mode : Nat) :
    ∀ (L : List (List Char)) (fs : List (List Char)),
      (attemptAll mkdirFS mode fs L).2 = none := by
  intro L
  induction L with
  | nil => intro fs; rfl
  | cons p ps ih =>
    intro fs
    rw [attemptAll_cons]
    by_cases hp : p ∈ fs
    · rw [show mkdirFS fs p mode = (fs, MkdirRes.eexist) from by
        rw [mkdirFS, if_pos hp]]
      exact ih fs
    · rw [show mkdirFS fs p mode = (p :: fs, MkdirRes.ok) from by
        rw [mkdirFS, if_neg hp]]
      exact ih (p :: fs)

/-- C6 (confirmed): `make_dir_path` equals running `mkdir(•, mode)` over
    the list `dirSteps path` of non-empty slash-delimited leading portions
    of `path`, in left-to-right order (`attemptAll`): an `EEXIST` failure
    is treated as success and iteration continues, any other failure stops
    immediately with the failing directory name and the OS error text, and
    `none` (success) is returned only after every attempt came back `ok`
    or `eexist`.  Against the honest filesystem model `mkdirFS` — where
    `mkdir` fails (only) with `EEXIST` on an existing directory — it
    always succeeds, so two calls in a row on the same path both succeed
    (idempotence).  The last conjunct pins the attempted chain for the
    spec example `/a/b/c`. -/
theorem c6_make_dir_path :
    (∀ (σ : Type) (mk : σ → List Char → Nat → σ × MkdirRes) (mode : Nat)
        (fs : σ) (path : List Char),
        make_dir_path mk fs path mode =
          attemptAll mk mode fs (dirSteps path)) ∧
    (∀ (mode : Nat) (fs : List (List Char)) (path : List Char),
        (make_dir_path mkdirFS fs path mode).2 = none ∧
        (make_dir_path mkdirFS (make_dir_path mkdirFS fs path mode).1 path
            mode).2 = none) ∧
    dirSteps ("/a/b/c".toList) =
      ["/a".toList, "/a/b".toList, "/a/b/c".toList] := by
  refine ⟨?_, ?_, by decide⟩
  · intro σ mk mode fs path
    exact mdpF_eq_attempt mk mode (path.length + 1) fs [] path
  · intro mode fs path
    constructor
    · rw [make_dir_path, mdpF_eq_attempt]
      exact attemptAll_mkdirFS_none mode _ fs
    · rw [make_dir_path, mdpF_eq_attempt]
      exact attemptAll_mkdirFS_none mode _ _

/-- C7 (confirmed): `mkdir_path` returns the distinct "nothing to do"
    marker (the C `dupstr("")`, here `MPRes.nothingToDo`), leaving the
    filesystem untouched, in exactly two cases: the filename contains no
    `/`, or the parent directory (the text before the last `/`) already
    exists per `access(•, F_OK)`.  Otherwise it hands the parent over to
    `make_dir_path` with permissive mode `0777` and returns that routine's
    result — `MPRes.created` for the C `NULL` ("succeeded after
    creating"), or the error pair. -/
theorem c7_mkdir_path (σ : Type) (acc : List Char → Bool)
    (mk : σ → List Char → Nat → σ × MkdirRes) (fs : σ) (path : List Char) :
    ('/' ∉ path → mkdir_path acc mk fs path = (fs, MPRes.nothingToDo)) ∧
    ('/' ∈ path → acc (parent_dir path) = true →
        mkdir_path acc mk fs path = (fs, MPRes.nothingToDo)) ∧
    ('/' ∈ path → acc (parent_dir path) = false →
        mkdir_path acc mk fs path =
          ((make_dir_path mk fs (parent_dir path) 0o777).1,
           match (make_dir_path mk fs (parent_dir path) 0o777).2 with
           | none => MPRes.created
           | some pm => MPRes.failed pm.1 pm.2)) ∧
    ((mkdir_path acc mk fs path).2 = MPRes.nothingToDo ↔
      ('/' ∉ path ∨ acc (parent_dir path) = true)) := by
  refine ⟨?_, ?_, ?_, ?_⟩
  · intro h
    unfold mkdir_path
    rw [if_neg h]
  · intro h hacc
    unfold mkdir_path
    rw [if_pos h, if_pos hacc]
  · intro h hacc
    unfold mkdir_path
    rw [if_pos h, if_neg (by simp [hacc])]
    rcases hm : make_dir_path mk fs (parent_dir path) 0o777 with ⟨fs2, r⟩
    cases r with
    | none => rfl
    | some pm => rfl
  · by_cases h : '/' ∈ path
    · by_cases hacc : acc (parent_dir path) = true
      · unfold mkdir_path
        rw [if_pos h, if_pos hacc]
        simp [h, hacc]
      · unfold mkdir_path
        rw [if_pos h, if_neg hacc]
        rcases hm : make_dir_path mk fs (parent_dir path) 0o777 with ⟨fs2, r⟩
        cases r with
        | none => simp [h, hacc]
        | some pm => simp [h, hacc]
    · unfold mkdir_path
      rw [if_neg h]
      simp [h]

/-- C7 (witness): a filename with no `/` yields the "nothing to do"
    marker with the filesystem untouched. -/
theorem c7_mkdir_path_witness :
    mkdir_path (fun _ => false) mkdirFS ([] : List (List Char))
      ("abc".toList) = ([], MPRes.nothingToDo) :=
  (c7_mkdir_path (List (List Char)) (fun _ => false) mkdirFS []
    ("abc".toList)).1 (by decide)

theorem memchr_nul_cons (c : Char) (rest : List Char) (n : Nat) :
    memchr_nul (c :: rest) (n + 1) =
      (if c = NUL then some 0
       else (memchr_nul rest n).map (fun i => i + 1)) := rfl

theorem memchr_nul_at (l2 : List Char) :
    ∀ (l1 : List Char) (n : Nat), NUL ∉ l1 → l1.length < n →
      memchr_nul (l1 ++ NUL :: l2) n = some l1.length := by
  intro l1
  induction l1 with
  | nil =>
    intro n _ hn
    cases n with
    | zero => exact (Nat.not_lt_zero _ hn).elim
    | succ m =>
      rw [List.nil_append, memchr_nul_cons, if_pos rfl]
      rfl
  | cons c l1' ih =>
    intro n hmem hn
    cases n with
    | zero => exact (Nat.not_lt_zero _ hn).elim
    | succ m =>
      simp only [List.mem_cons, not_or] at hmem
      rw [List.cons_append, memchr_nul_cons,
        if_neg (fun hh => hmem.1 hh.symm),
        ih m hmem.2 (by simp only [List.length_cons] at hn; omega)]
      rfl

theorem takeWhile_nul (l2 : List Char) :
    ∀ l1 : List Char, NUL ∉ l1 →
      (l1 ++ NUL :: l2).takeWhile (fun x => x != NUL) = l1 := by
  intro l1
  induction l1 with
  | nil =>
    intro _
    rw [List.nil_append, List.takeWhile_cons_of_neg (by decide)]
  | cons c l1' ih =>
    intro hmem
    simp only [List.mem_cons, not_or] at hmem
    rw [List.cons_append,
      List.takeWhile_cons_of_pos
        (by rw [bne_iff_ne]; exact fun hh => hmem.1 hh.symm),
      ih hmem.2]

theorem memchr_none_iff :
    ∀ (data : List Char) (n : Nat),
      memchr_nul data n = none ↔ NUL ∉ data.take n := by
  intro data
  induction data with
  | nil =>
    intro n
    cases n <;> simp [memchr_nul]
  | cons c rest ih =>
    intro n
    cases n with
    | zero => simp [memchr_nul]
    | succ m =>
      rw [memchr_nul_cons]
      by_cases hc : c = NUL
      · rw [if_pos hc]
        subst hc
        simp
      · rw [if_neg hc]
        rw [show (c :: rest).take (m + 1) = c :: rest.take m from rfl]
        simp only [List.mem_cons, not_or]
        cases hmn : memchr_nul rest m with
        | none =>
          constructor
          · intro _
            exact ⟨fun hh => hc hh.symm, (ih m).mp hmn⟩
          · intro _
            rfl
        | some i =>
          have hin : ¬(NUL ∉ rest.take m) := fun hnm => by
            rw [(ih m).mpr hnm] at hmn
            cases hmn
          constructor
          · intro hcon
            cases hcon
          · intro hh
            exact absurd hh.2 hin

/-- C10 (confirmed): serialising a `Filename` and deserialising the bytes
    with any `maxsize` at least the serialised length
    (`filename_serialise(f, NULL) = strlen(path)+1`) round-trips: the
    result is a `Filename` with the same path, and `*used` is the
    serialised length.  The hypothesis `NUL ∉ f.path` is the C string
    invariant.  And `filename_deserialise` returns `NULL` exactly when no
    NUL byte occurs within the first `maxsize` bytes. -/
theorem c10_serialise_roundtrip :
    (∀ (f : Filename) (junk : List Char) (maxsize : Nat),
        NUL ∉ f.path → (filename_serialise f).2 ≤ maxsize →
        filename_deserialise ((filename_serialise f).1 ++ junk) maxsize =
          some (f, (filename_serialise f).2)) ∧
    (∀ (data : List Char) (maxsize : Nat),
        filename_deserialise data maxsize = none ↔
          NUL ∉ data.take maxsize) := by
  constructor
  · intro f junk maxsize hmem hlen
    show filename_deserialise ((f.path ++ [NUL]) ++ junk) maxsize = _
    rw [List.append_assoc, List.singleton_append]
    unfold filename_deserialise
    rw [memchr_nul_at junk f.path maxsize hmem
      (by simp only [filename_serialise] at hlen; omega)]
    rw [takeWhile_nul junk f.path hmem]
    rfl
  · intro data maxsize
    unfold filename_deserialise
    cases hmn : memchr_nul data maxsize with
    | none =>
      constructor
      · intro _
        exact (memchr_none_iff data maxsize).mp hmn
      · intro _
        rfl
    | some i =>
      have hin : ¬(NUL ∉ data.take maxsize) := fun hnm => by
        rw [(memchr_none_iff data maxsize).mpr hnm] at hmn
        cases hmn
      constructor
      · intro hcon
        cases hcon
      · intro hh
        exact absurd hh hin

/-- C10 (witness): the two-byte path `ab` serialises to `ab\0` and
    deserialises back with `*used = 3`. -/
theorem c10_serialise_roundtrip_witness :
    filename_deserialise ((filename_serialise ⟨"ab".toList⟩).1 ++ []) 3 =
      some (⟨"ab".toList⟩, (filename_serialise ⟨"ab".toList⟩).2) :=
  c10_serialise_roundtrip.1 ⟨"ab".toList⟩ [] 3 (by decide) (by decide)

